import Mathlib

/-!
Verification of the Conversion Graph Resolver, LineItem Pricer, Invoice
Aggregator and Paginator of `slip39/invoice/artifact.py`.

The Python code is shallowly embedded:

* a Python `dict` keyed by currency-pair (an insertion-ordered mapping with
  unique keys) becomes an association list `Conv`; `dict.get` becomes `cget`
  (returning `none` both for an absent key and for a key stored with value
  `None`, exactly as `.get` returns the `None` more-or-less ambiguously),
  and item assignment becomes `cset` (update in place, else append);
* Python numbers (`int`/`float`/`Fraction`) become `ℚ`; the `None` ratio
  sentinel becomes the `none` of `Option ℚ`;
* exceptions (`KeyError`, `TypeError`, `ValueError`, `ZeroDivisionError`,
  `RuntimeError`) become explicit outcome constructors.
-/

set_option maxRecDepth 4000

-- Rat arithmetic is `@[irreducible]` in the library; re-open it so that
-- concrete runs of the embedded code evaluate under `decide`.
unseal Rat.add Rat.mul Rat.inv Rat.sub

namespace Slip39

/-- Canonical upper-case currency symbol, e.g. `"BTC"`. -/
abbrev Sym := String

/-- An ordered currency pair, the key of the conversions mapping. -/
abbrev CKey := Sym × Sym

/-- The conversions mapping `{(a,b): ratio-or-None}` of `artifact.py`,
as an insertion-ordered association list (Python dict semantics). -/
abbrev Conv := List (CKey × Option ℚ)

/-- First stored value for a key, if the key is present
(`conversions[k]` would raise `KeyError` when this is `none`). -/
def cfind : Conv → CKey → Option (Option ℚ)
  | [], _ => none
  | (k1, v) :: rest, k => if k1 = k then some v else cfind rest k

/-- Python `conversions.get(k)`: `none` when the key is absent *or* stored
with value `None`. -/
def cget (st : Conv) (k : CKey) : Option ℚ :=
  (cfind st k).getD none

/-- Python `conversions[k] = v`: replace in place when present, else append
(insertion order preserved, as for a dict). -/
def cset : Conv → CKey → Option ℚ → Conv
  | [], k, v => [(k, v)]
  | (k1, v1) :: rest, k, v =>
    if k1 = k then (k, v) :: rest else (k1, v1) :: cset rest k v

/-- Python truthiness of a ratio-or-`None`: `None` and `0` are falsey. -/
def truthy (r : Option ℚ) : Prop := r.getD 0 ≠ 0

instance (r : Option ℚ) : Decidable (truthy r) := by
  unfold truthy; infer_instance

/-- The inner loop of the single-hop pass of `conversions_remaining`
(artifact.py:154-161): for the outer item `(a,b) → q`, walk a fresh snapshot
`isnap` of the dict and record each composition `(a,b) ∘ (a2,b2) → (a,b2)`.
`st` is the live dict, `upd` the `updated` flag. -/
def innerGo (a b : Sym) (q : ℚ) : List (CKey × Option ℚ) → Conv → Bool → Conv × Bool
  | [], st, upd => (st, upd)
  | (k2, r2) :: rest, st, upd =>
    match r2 with
    | none => innerGo a b q rest st upd
    | some q2 =>
      if b = k2.1 ∧ a ≠ k2.2 ∧ cget st (a, k2.2) = none then
        innerGo a b q rest (cset st (a, k2.2) (some (q * q2))) true
      else
        innerGo a b q rest st upd
/-- The outer loop of the single-hop pass (artifact.py:147-161): `snap` is
the `list(conversions.items())` snapshot taken at call entry; for each item,
invert it when non-zero and its reverse is unknown, then run the inner
composition loop over a fresh snapshot of the live dict. -/
def pass1Go : List (CKey × Option ℚ) → Conv → Bool → Conv × Bool
  | [], st, upd => (st, upd)
  | (k, r) :: rest, st, upd =>
    match r with
    | none => pass1Go rest st upd
    | some q =>
      if q ≠ 0 ∧ cget st (k.2, k.1) = none then
        pass1Go rest
          (innerGo k.1 k.2 q (cset st (k.2, k.1) (some q⁻¹))
            (cset st (k.2, k.1) (some q⁻¹)) true).1
          (innerGo k.1 k.2 q (cset st (k.2, k.1) (some q⁻¹))
            (cset st (k.2, k.1) (some q⁻¹)) true).2
      else
        pass1Go rest (innerGo k.1 k.2 q st st upd).1 (innerGo k.1 k.2 q st st upd).2

/-- One single-hop deduction pass (inversions and one-hop compositions),
returning the updated mapping and the `updated` flag. -/
def pass1 (st : Conv) : Conv × Bool := pass1Go st st false

/-- Whether symbol `s` occurs in pair `k` (Python `s in k` on a tuple). -/
def inPair (s : Sym) (k : CKey) : Prop := s = k.1 ∨ s = k.2

instance (s : Sym) (k : CKey) : Decidable (inPair s k) := by
  unfold inPair; infer_instance

/-- Python `set(c2).intersection(set(c3))` as a list of distinct symbols. -/
def interSyms (c2 c3 : CKey) : List Sym :=
  (if c2.1 = c2.2 then [c2.1] else [c2.1, c2.2]).filter
    (fun s => decide (inPair s c3))

/-- Innermost loop of the two-hop escalation (artifact.py:171-180): first
`c3` containing `b`, distinct from `c2`, with a truthy ratio and a non-empty
symbol intersection with `c2`. -/
def findC3 (b : Sym) (c2 : CKey) : List (CKey × Option ℚ) → Option CKey
  | [] => none
  | (c3, r3) :: rest =>
    if c2 ≠ c3 ∧ truthy r3 ∧ inPair b c3 ∧ interSyms c2 c3 ≠ [] then some c3
    else findC3 b c2 rest

/-- Middle loop of the two-hop escalation (artifact.py:169-180): first pair
`c2` containing `a` with a truthy ratio for which the innermost loop finds a
`c3`. -/
def findC2 (st : Conv) (a b : Sym) : List (CKey × Option ℚ) → Option (CKey × CKey)
  | [] => none
  | (c2, r2) :: rest =>
    if truthy r2 ∧ inPair a c2 then
      match findC3 b c2 st with
      | some c3 => some (c2, c3)
      | none => findC2 st a b rest
    else findC2 st a b rest

/-- Outer loop of the two-hop escalation (artifact.py:166-180): first
unresolved pair `(a,b)` for which candidate pairs `c2`, `c3` are found. -/
def findEsc (st : Conv) : List (CKey × Option ℚ) → Option (Sym × Sym × CKey × CKey)
  | [] => none
  | (k, r) :: rest =>
    match r with
    | some _ => findEsc st rest
    | none =>
      match findC2 st k.1 k.2 st with
      | some (c2, c3) => some (k.1, k.2, c2, c3)
      | none => findEsc st rest

/-- Result of the two-hop escalation block: it fired (`return True`), it
raised an exception (`ValueError` from unpacking a non-singleton
intersection, `KeyError`/`TypeError` from `conversions[a,x]`, or
`ZeroDivisionError` from `1 / conversions[a,b]`), or its loops completed
without firing. Each constructor carries the dict as the block left it. -/
inductive EscOutcome where
  | fired (st : Conv)
  | crash (st : Conv)
  | nothing
deriving DecidableEq, Repr

/-- Body of the two-hop escalation once candidates `(a,b)`, `c2`, `c3` are
found (artifact.py:176-180): unpack the single shared symbol `x`, then
`conversions[a,b] = conversions[a,x] * conversions[b,x]` and
`conversions[b,a] = 1 / conversions[a,b]`.  A non-singleton intersection or
a failing/`None` lookup raises before any mutation; a zero product raises
on the inversion, after `(a,b)` was already assigned. -/
def escFire (st : Conv) (a b : Sym) (c2 c3 : CKey) : EscOutcome :=
  match interSyms c2 c3 with
  | [x] =>
    match cfind st (a, x), cfind st (b, x) with
    | some (some qa), some (some qb) =>
      let q := qa * qb
      let st1 := cset st (a, b) (some q)
      if q = 0 then .crash st1 else .fired (cset st1 (b, a) (some q⁻¹))
    | _, _ => .crash st
  | _ => .crash st

/-- The two-hop escalation pass of `conversions_remaining`
(artifact.py:166-180), reached only when the single-hop pass reported no
progress. -/
def conversions_deduce (st : Conv) : EscOutcome :=
  match findEsc st st with
  | none => .nothing
  | some (a, b, c2, c3) => escFire st a b c2 c3

/-- Key order used by `sorted(f'{a}/{b}' ...)` in the diagnostics
(artifact.py:185-188), on pairs of symbols.  `s.data < t.data` is exactly
the `String` order (`instLTString` compares the character lists), spelled
on the lists so that it evaluates by `decide`. -/
def keyLE (k1 k2 : CKey) : Prop :=
  k1.1.data < k2.1.data ∨ (k1.1 = k2.1 ∧ ¬ k2.2.data < k1.2.data)

instance (k1 k2 : CKey) : Decidable (keyLE k1 k2) := by
  unfold keyLE; infer_instance

/-- Insert into a sorted list of keys. -/
def insertKey (k : CKey) : List CKey → List CKey
  | [] => [k]
  | k2 :: rest => if keyLE k k2 then k :: k2 :: rest else k2 :: insertKey k rest

/-- Python `sorted` over formatted pair names. -/
def sortKeys : List CKey → List CKey
  | [] => []
  | k :: rest => insertKey k (sortKeys rest)

/-- Result of one call of `conversions_remaining` (artifact.py:126-193):
`progress` is the truthy `True` return, `done` the falsey `False` return
("no remaining unresolved conversions"), `stalled` the truthy
message-string return (carrying the still-unknown pairs and the `> 1`
resolved pairs named by the message), `raised` the strict-mode
`RuntimeError` with the same diagnostics, and `crashed` an exception
escaping the escalation block. Each constructor carries the mapping as the
call left it (the dict is updated in place). -/
inductive ConvOutcome where
  | progress (st : Conv)
  | done (st : Conv)
  | stalled (st : Conv) (remains resolved : List CKey)
  | raised (st : Conv) (remains resolved : List CKey)
  | crashed (st : Conv)
deriving DecidableEq, Repr

/-- The mapping as the call left it. -/
def ConvOutcome.stateOf : ConvOutcome → Conv
  | .progress st => st
  | .done st => st
  | .stalled st _ _ => st
  | .raised st _ _ => st
  | .crashed st => st

/-- Whether the call raised the strict-mode `RuntimeError`. -/
def ConvOutcome.isRaised : ConvOutcome → Bool
  | .raised _ _ _ => true
  | _ => false

/-- Whether the call returned truthy `True`. -/
def ConvOutcome.isProgress : ConvOutcome → Bool
  | .progress _ => true
  | _ => false

/-- The diagnostic pair (still-unknown pairs, resolved pairs named by the
failure message), when the call ended in the failure branch. -/
def ConvOutcome.diag : ConvOutcome → Option (List CKey × List CKey)
  | .stalled _ remains resolved => some (remains, resolved)
  | .raised _ remains resolved => some (remains, resolved)
  | _ => none

/-- `conversions_remaining(conversions, verify)` (artifact.py:126-193):
run the single-hop pass; if it updated anything return `True`; otherwise run
the two-hop escalation; if it fired return `True`; otherwise collect the
still-unknown pairs — if none remain return `False`, else either raise (in
`verify` mode) or return the diagnostic message naming the unknown pairs
and the resolved pairs with ratio `> 1`. -/
def conversions_remaining (st : Conv) (verify : Bool) : ConvOutcome :=
  let p := pass1 st
  if p.2 then .progress p.1
  else
    match conversions_deduce p.1 with
    | .fired st2 => .progress st2
    | .crash st2 => .crashed st2
    | .nothing =>
      let remains := sortKeys ((p.1.filter (fun e => e.2.isNone)).map (fun e => e.1))
      if remains.isEmpty then .done p.1
      else
        let resolved := sortKeys ((p.1.filter
          (fun e => match e.2 with | some q => decide (1 < q) | none => false)).map
          (fun e => e.1))
        if verify then .raised p.1 remains resolved
        else .stalled p.1 remains resolved

/-- The caller loop `while conversions_remaining(...)` (artifact.py:374,
artifact_test.py): re-invoke while the call reports progress, with fuel
bounding the number of calls. -/
def resolveFix : Nat → Conv → Bool → ConvOutcome
  | 0, st, verify => conversions_remaining st verify
  | n + 1, st, verify =>
    match conversions_remaining st verify with
    | .progress st2 => resolveFix n st2 verify
    | out => out

/-- The tax information string of `LineItem.net`, kept structurally: the
code renders `"no tax"`, `f"{...}% added"` (showing the rate), or
`f"{...}% incl."` (showing the rate less one). -/
inductive TaxInfo where
  | noTax
  | added (rate : ℚ)
  | incl (rate : ℚ)
deriving DecidableEq, Repr

/-- The `Item` dataclass of artifact.py:72-79. -/
structure LineItem where
  description : String
  price : ℚ
  units : ℚ
  tax : Option ℚ
  decimals : Option ℕ
  currency : Option Sym
deriving DecidableEq, Repr

/-- `LineItem.net` (artifact.py:83-100): the line total `amount`, the
`taxes`, and the tax description.  `amount = units * price`; a truthy tax
below one is added on top, a tax above one is backed out of the stated
amount, and any other tax (absent, zero — or exactly one, which falls
through both comparisons) leaves `taxes = 0` and `"no tax"`. -/
def LineItem.net (li : LineItem) : ℚ × ℚ × TaxInfo :=
  let amount := li.units * li.price
  match li.tax with
  | none => (amount, 0, .noTax)
  | some t =>
    if t = 0 then (amount, 0, .noTax)
    else if t < 1 then (amount + amount * t, amount * t, .added t)
    else if 1 < t then (amount, amount - amount / t, .incl (t - 1))
    else (amount, 0, .noTax)

/-- The unresolvable scenario of the spec: two ratios to USD and a desired
DOGE/USD with no bridge. -/
def c7conversions : Conv :=
  [(("ETH", "USD"), some (123456 / 100 : ℚ)),
   (("BTC", "USD"), some (2345678 / 100 : ℚ)),
   (("DOGE", "USD"), none)]

/-- Round half to even, the behaviour of Python `round` on exact numbers
(`Fraction.__round__`). -/
def rhe (q : ℚ) : ℤ :=
  let f := ⌊q⌋
  let r := q - f
  if r < 1 / 2 then f
  else if 1 / 2 < r then f + 1
  else if 2 ∣ f then f else f + 1

/-- Python `round(q, d)` for a non-negative digit count `d`. -/
def roundTo (q : ℚ) (d : ℕ) : ℚ := (rhe (q * 10 ^ d) : ℚ) / 10 ^ d

/-- Modelled from the spec: the default Invoice currency
(`INVOICE_CURRENCY` of `slip39/defaults.py`, which is not under src/):
LineItem "currency (optional; defaults to a global default currency)",
"default: USD". -/
def INVOICE_CURRENCY : Sym := "USD"

/-- Modelled from the spec: the token-metadata collaborator `tokeninfo`
(`slip39/invoice/ethereum.py`, not under src/), §6: "Proxy/Token metadata
(external collaborator): read-only fields `symbol`, `decimals` (integer,
used as `decimals // 3` for default display precision), `name`."  Only the
fields the aggregator reads are kept. -/
structure TokenInfo where
  symbol : Sym
  decimals : ℕ

/-- An `Invoice` as consumed by `Invoice.__iter__` (artifact.py:437-498):
the line items, the target currency symbols (`self.currencies`, a set —
assumed duplicate-free), the conversion ratios resolved once at
construction (`self.conversions`, read as `self.conversions[sym, c]`), and
the token-metadata resolution used for each line's symbol and decimals. -/
structure Invoice where
  lines : List LineItem
  currencies : List Sym
  conv : Sym → Sym → ℚ
  tok : Sym → TokenInfo

/-- The line's currency symbol: `tokeninfo(line.currency or
INVOICE_CURRENCY).symbol` (artifact.py:462-466). -/
def lineSym (inv : Invoice) (li : LineItem) : Sym :=
  (inv.tok (li.currency.getD INVOICE_CURRENCY)).symbol

/-- The line's display decimals: `line_curr.decimals // 3 if line.decimals
is None else line.decimals` (artifact.py:467). -/
def lineDec (inv : Invoice) (li : LineItem) : ℕ :=
  match li.decimals with
  | none => (inv.tok (li.currency.getD INVOICE_CURRENCY)).decimals / 3
  | some d => d

/-- `line_amount = round(line_amount, line_decimals)` (artifact.py:469). -/
def lineAmountR (inv : Invoice) (li : LineItem) : ℚ :=
  roundTo li.net.1 (lineDec inv li)

/-- `line_taxes = round(line_taxes, line_decimals)` (artifact.py:470). -/
def lineTaxesR (inv : Invoice) (li : LineItem) : ℚ :=
  roundTo li.net.2.1 (lineDec inv li)

/-- One row of `Invoice.__iter__` (artifact.py:480-498), keeping the
computed numeric fields and the running total/taxes accumulators after this
line (the Python row records `tot[c]`, `tax[c]` for each target currency in
sorted order; here the whole accumulator snapshot is carried). -/
structure Row where
  idx : ℕ
  taxes : ℚ
  net : ℚ
  amount : ℚ
  symbol : Sym
  decimals : ℕ
  totAt : Sym → ℚ
  taxAt : Sym → ℚ

/-- The loop body of `Invoice.__iter__` (artifact.py:461-498): per line,
round its net amount and taxes to the line's decimals, then for each target
currency add them to the running totals — directly when the line's symbol
is that currency, else multiplied by the fixed resolved ratio — and emit a
row carrying the post-line accumulators. -/
def iterGo (inv : Invoice) : List LineItem → (Sym → ℚ) → (Sym → ℚ) → ℕ → List Row
  | [], _, _, _ => []
  | li :: rest, tot, tax, i =>
    let la := lineAmountR inv li
    let lt := lineTaxesR inv li
    let s := lineSym inv li
    let tot1 := fun c => if c ∈ inv.currencies then
        (if s = c then tot c + la else tot c + la * inv.conv s c) else tot c
    let tax1 := fun c => if c ∈ inv.currencies then
        (if s = c then tax c + lt else tax c + lt * inv.conv s c) else tax c
    { idx := i, taxes := lt, net := la - lt, amount := la, symbol := s,
      decimals := lineDec inv li, totAt := tot1, taxAt := tax1 }
      :: iterGo inv rest tot1 tax1 (i + 1)

/-- `Invoice.__iter__`: the full row sequence, accumulators initialised to
zero (artifact.py:454-459). -/
def Invoice.iter (inv : Invoice) : List Row :=
  iterGo inv inv.lines (fun _ => 0) (fun _ => 0) 0

/-- `Invoice.pages` (artifact.py:500-527): accumulate rows into batches of
`n`, yielding each full batch — and the final partial batch — only when its
zero-based page index matches the filter.  The filter `pm` models the
Python `page` argument (`None` → always true, an int → index equality, a
container → membership). -/
def pagesGo (n : ℕ) (pm : ℕ → Bool) : List α → ℕ → List α → List (List α)
  | [], i, acc => if !acc.isEmpty && pm i then [acc] else []
  | r :: rest, i, acc =>
    let acc1 := acc ++ [r]
    if n ≤ acc1.length then
      (if pm i then [acc1] else []) ++ pagesGo n pm rest (i + 1) []
    else pagesGo n pm rest i acc1

/-- `Invoice.pages` on a row sequence, starting from page 0 with an empty
accumulator. -/
def pages (n : ℕ) (pm : ℕ → Bool) (rows : List α) : List (List α) :=
  pagesGo n pm rows 0 []

/-! ### Basic lemmas about the mapping operations -/

theorem truthy_iff (r : Option ℚ) : truthy r ↔ ∃ q, r = some q ∧ q ≠ 0 := by
  cases r <;> simp [truthy]

theorem cfind_eq_some_mem {st : Conv} {k : CKey} {v : Option ℚ}
    (h : cfind st k = some v) : (k, v) ∈ st := by
  induction st with
  | nil => simp [cfind] at h
  | cons e rest ih =>
    obtain ⟨k1, v1⟩ := e
    by_cases hk : k1 = k
    · subst hk
      simp [cfind] at h
      simp [h]
    · simp [cfind, hk] at h
      exact List.mem_cons_of_mem _ (ih h)

theorem cget_some_mem {st : Conv} {k : CKey} {q : ℚ}
    (h : cget st k = some q) : (k, some q) ∈ st := by
  unfold cget at h
  rcases hf : cfind st k with _ | v
  · rw [hf] at h; simp at h
  · rw [hf] at h
    simp at h
    subst h
    exact cfind_eq_some_mem hf

theorem mem_cfind_nodup {st : Conv} {k : CKey} {v : Option ℚ}
    (hnd : (st.map Prod.fst).Nodup) (h : (k, v) ∈ st) : cfind st k = some v := by
  induction st with
  | nil => simp at h
  | cons e rest ih =>
    obtain ⟨k1, v1⟩ := e
    simp only [List.map_cons, List.nodup_cons] at hnd
    rcases List.mem_cons.1 h with he | hm
    · obtain ⟨h1, h2⟩ := Prod.mk.injEq .. ▸ he
      simp [cfind, h1.symm, h2]
    · have hne : k1 ≠ k := by
        intro hEq
        exact hnd.1 (hEq ▸ (List.mem_map.2 ⟨(k, v), hm, rfl⟩))
      simp [cfind, hne]
      exact ih hnd.2 hm

theorem cfind_cset_self (st : Conv) (k : CKey) (v : Option ℚ) :
    cfind (cset st k v) k = some v := by
  induction st with
  | nil => simp [cset, cfind]
  | cons e rest ih =>
    obtain ⟨k1, v1⟩ := e
    by_cases hk : k1 = k
    · simp [cset, hk, cfind]
    · simp [cset, hk, cfind, ih]

theorem cfind_cset_ne (st : Conv) {k k2 : CKey} (v : Option ℚ) (hne : k2 ≠ k) :
    cfind (cset st k v) k2 = cfind st k2 := by
  induction st with
  | nil => simp [cset, cfind, Ne.symm hne]
  | cons e rest ih =>
    obtain ⟨k1, v1⟩ := e
    by_cases hk : k1 = k
    · subst hk
      simp [cset, cfind, Ne.symm hne]
    · by_cases hk2 : k1 = k2
      · simp [cset, hk, cfind, hk2, hne]
      · simp [cset, hk, cfind, hk2, ih]

theorem cget_cset_self (st : Conv) (k : CKey) (v : Option ℚ) :
    cget (cset st k v) k = v := by
  simp [cget, cfind_cset_self]

theorem cget_cset_ne (st : Conv) {k k2 : CKey} (v : Option ℚ) (hne : k2 ≠ k) :
    cget (cset st k v) k2 = cget st k2 := by
  simp [cget, cfind_cset_ne st v hne]

theorem mem_interSyms {s : Sym} {c2 c3 : CKey} :
    s ∈ interSyms c2 c3 ↔ inPair s c2 ∧ inPair s c3 := by
  unfold interSyms
  by_cases h : c2.1 = c2.2 <;> simp [h, inPair]

theorem pair_of_inPair {u w : Sym} {k : CKey} (hu : inPair u k) (hw : inPair w k)
    (hne : u ≠ w) : k = (u, w) ∨ k = (w, u) := by
  obtain ⟨k1, k2⟩ := k
  rcases hu with hu | hu <;> rcases hw with hw | hw <;>
    simp_all [inPair]

/-! ### The single-hop pass: what "no update" implies -/

theorem innerGo_cons_none (a b : Sym) (q : ℚ) (k2 : CKey)
    (rest : List (CKey × Option ℚ)) (st : Conv) (upd : Bool) :
    innerGo a b q ((k2, none) :: rest) st upd = innerGo a b q rest st upd := rfl

theorem innerGo_cons_pos {a b : Sym} (q : ℚ) {k2 : CKey} (q2 : ℚ)
    (rest : List (CKey × Option ℚ)) {st : Conv} (upd : Bool)
    (hg : b = k2.1 ∧ a ≠ k2.2 ∧ cget st (a, k2.2) = none) :
    innerGo a b q ((k2, some q2) :: rest) st upd
      = innerGo a b q rest (cset st (a, k2.2) (some (q * q2))) true := by
  simp only [innerGo]; rw [if_pos hg]

theorem innerGo_cons_neg {a b : Sym} (q : ℚ) {k2 : CKey} (q2 : ℚ)
    (rest : List (CKey × Option ℚ)) {st : Conv} (upd : Bool)
    (hg : ¬(b = k2.1 ∧ a ≠ k2.2 ∧ cget st (a, k2.2) = none)) :
    innerGo a b q ((k2, some q2) :: rest) st upd = innerGo a b q rest st upd := by
  simp only [innerGo]; rw [if_neg hg]

theorem pass1Go_cons_none (k : CKey) (rest : List (CKey × Option ℚ))
    (st : Conv) (upd : Bool) :
    pass1Go ((k, none) :: rest) st upd = pass1Go rest st upd := rfl

theorem pass1Go_cons_pos {k : CKey} {q : ℚ} (rest : List (CKey × Option ℚ))
    {st : Conv} (upd : Bool) (hg : q ≠ 0 ∧ cget st (k.2, k.1) = none) :
    pass1Go ((k, some q) :: rest) st upd
      = pass1Go rest
          (innerGo k.1 k.2 q (cset st (k.2, k.1) (some q⁻¹))
            (cset st (k.2, k.1) (some q⁻¹)) true).1
          (innerGo k.1 k.2 q (cset st (k.2, k.1) (some q⁻¹))
            (cset st (k.2, k.1) (some q⁻¹)) true).2 := by
  simp only [pass1Go]; rw [if_pos hg]

theorem pass1Go_cons_neg {k : CKey} {q : ℚ} (rest : List (CKey × Option ℚ))
    {st : Conv} (upd : Bool) (hg : ¬(q ≠ 0 ∧ cget st (k.2, k.1) = none)) :
    pass1Go ((k, some q) :: rest) st upd
      = pass1Go rest (innerGo k.1 k.2 q st st upd).1 (innerGo k.1 k.2 q st st upd).2 := by
  simp only [pass1Go]; rw [if_neg hg]

theorem innerGo_snd_mono (a b : Sym) (q : ℚ) (snap : List (CKey × Option ℚ)) :
    ∀ (st : Conv) (upd : Bool), (innerGo a b q snap st upd).2 = false → upd = false := by
  induction snap with
  | nil => intro st upd h; simpa [innerGo] using h
  | cons e rest ih =>
    intro st upd h
    obtain ⟨k2, r2⟩ := e
    cases r2 with
    | none =>
      rw [innerGo_cons_none] at h
      exact ih st upd h
    | some q2 =>
      by_cases hg : b = k2.1 ∧ a ≠ k2.2 ∧ cget st (a, k2.2) = none
      · rw [innerGo_cons_pos q q2 rest upd hg] at h
        exact absurd (ih _ _ h) (by simp)
      · rw [innerGo_cons_neg q q2 rest upd hg] at h
        exact ih st upd h

theorem pass1Go_snd_mono (snap : List (CKey × Option ℚ)) :
    ∀ (st : Conv) (upd : Bool), (pass1Go snap st upd).2 = false → upd = false := by
  induction snap with
  | nil => intro st upd h; simpa [pass1Go] using h
  | cons e rest ih =>
    intro st upd h
    obtain ⟨k, r⟩ := e
    cases r with
    | none =>
      rw [pass1Go_cons_none] at h
      exact ih st upd h
    | some q =>
      by_cases hg : q ≠ 0 ∧ cget st (k.2, k.1) = none
      · rw [pass1Go_cons_pos rest upd hg] at h
        exact absurd (innerGo_snd_mono _ _ _ _ _ _ (ih _ _ h)) (by simp)
      · rw [pass1Go_cons_neg rest upd hg] at h
        exact innerGo_snd_mono _ _ _ _ _ _ (ih _ _ h)

theorem innerGo_no_update (a b : Sym) (q : ℚ) (snap : List (CKey × Option ℚ)) :
    ∀ (st : Conv) (upd : Bool), (innerGo a b q snap st upd).2 = false →
      (innerGo a b q snap st upd).1 = st ∧
      ∀ k2 q2, (k2, some q2) ∈ snap →
        ¬(b = k2.1 ∧ a ≠ k2.2 ∧ cget st (a, k2.2) = none) := by
  induction snap with
  | nil => intro st upd _; simp [innerGo]
  | cons e rest ih =>
    intro st upd h
    obtain ⟨k2, r2⟩ := e
    cases r2 with
    | none =>
      rw [innerGo_cons_none] at h ⊢
      obtain ⟨h1, h2⟩ := ih st upd h
      refine ⟨h1, ?_⟩
      intro k3 q3 hm
      rcases List.mem_cons.1 hm with he | hm2
      · simp at he
      · exact h2 k3 q3 hm2
    | some q2 =>
      by_cases hg : b = k2.1 ∧ a ≠ k2.2 ∧ cget st (a, k2.2) = none
      · rw [innerGo_cons_pos q q2 rest upd hg] at h
        exact absurd (innerGo_snd_mono _ _ _ _ _ _ h) (by simp)
      · rw [innerGo_cons_neg q q2 rest upd hg] at h ⊢
        obtain ⟨h1, h2⟩ := ih st upd h
        refine ⟨h1, ?_⟩
        intro k3 q3 hm
        rcases List.mem_cons.1 hm with he | hm2
        · obtain ⟨he1, he2⟩ := Prod.mk.injEq .. ▸ he
          subst he1
          rw [Option.some_inj] at he2
          subst he2
          exact hg
        · exact h2 k3 q3 hm2

theorem pass1Go_no_update (snap : List (CKey × Option ℚ)) :
    ∀ (st : Conv) (upd : Bool), (pass1Go snap st upd).2 = false →
      (pass1Go snap st upd).1 = st ∧
      ∀ k q, (k, some q) ∈ snap →
        ¬(q ≠ 0 ∧ cget st (k.2, k.1) = none) ∧
        ∀ k2 q2, (k2, some q2) ∈ st →
          ¬(k.2 = k2.1 ∧ k.1 ≠ k2.2 ∧ cget st (k.1, k2.2) = none) := by
  induction snap with
  | nil => intro st upd _; simp [pass1Go]
  | cons e rest ih =>
    intro st upd h
    obtain ⟨k, r⟩ := e
    cases r with
    | none =>
      rw [pass1Go_cons_none] at h ⊢
      obtain ⟨h1, h2⟩ := ih st upd h
      refine ⟨h1, ?_⟩
      intro k3 q3 hm
      rcases List.mem_cons.1 hm with he | hm2
      · simp at he
      · exact h2 k3 q3 hm2
    | some q =>
      by_cases hg : q ≠ 0 ∧ cget st (k.2, k.1) = none
      · rw [pass1Go_cons_pos rest upd hg] at h
        exact absurd (innerGo_snd_mono _ _ _ _ _ _ (pass1Go_snd_mono _ _ _ h)) (by simp)
      · rw [pass1Go_cons_neg rest upd hg] at h ⊢
        have hi2 : (innerGo k.1 k.2 q st st upd).2 = false :=
          pass1Go_snd_mono _ _ _ h
        obtain ⟨hi1, hic⟩ := innerGo_no_update _ _ _ _ _ _ hi2
        rw [hi1, hi2] at h ⊢
        obtain ⟨h1, h2⟩ := ih st false h
        refine ⟨h1, ?_⟩
        intro k3 q3 hm
        rcases List.mem_cons.1 hm with he | hm2
        · obtain ⟨he1, he2⟩ := Prod.mk.injEq .. ▸ he
          subst he1
          rw [Option.some_inj] at he2
          subst he2
          exact ⟨hg, fun k2 q2 hm2 => hic k2 q2 hm2⟩
        · exact h2 k3 q3 hm2

/-- At a fixed point of the single-hop pass the mapping is unchanged, every
truthy pair has a known reverse, and every tip-to-tail pair of known
ratios has a known composite. -/
theorem pass1_fixed (st : Conv) (h : (pass1 st).2 = false) :
    (pass1 st).1 = st ∧
    (∀ k (q : ℚ), (k, some q) ∈ st → q ≠ 0 → cget st (k.2, k.1) ≠ none) ∧
    (∀ k (q : ℚ) k2 (q2 : ℚ), (k, some q) ∈ st → (k2, some q2) ∈ st →
      k.2 = k2.1 → k.1 ≠ k2.2 → cget st (k.1, k2.2) ≠ none) := by
  obtain ⟨h1, h2⟩ := pass1Go_no_update st st false h
  refine ⟨h1, ?_, ?_⟩
  · intro k q hm hq hnone
    exact (h2 k q hm).1 ⟨hq, hnone⟩
  · intro k q k2 q2 hm hm2 hmid hne hnone
    exact (h2 k q hm).2 k2 q2 hm2 ⟨hmid, hne, hnone⟩

/-! ### The single-hop pass never overwrites a known ratio -/

theorem innerGo_preserves (a b : Sym) (q : ℚ) (snap : List (CKey × Option ℚ)) :
    ∀ (st : Conv) (upd : Bool) (k : CKey) (q0 : ℚ), cget st k = some q0 →
      cget (innerGo a b q snap st upd).1 k = some q0 := by
  induction snap with
  | nil => intro st upd k q0 h; simpa [innerGo]
  | cons e rest ih =>
    intro st upd k q0 h
    obtain ⟨k2, r2⟩ := e
    cases r2 with
    | none => rw [innerGo_cons_none]; exact ih st upd k q0 h
    | some q2 =>
      by_cases hg : b = k2.1 ∧ a ≠ k2.2 ∧ cget st (a, k2.2) = none
      · rw [innerGo_cons_pos q q2 rest upd hg]
        refine ih _ _ k q0 ?_
        have hkne : k ≠ (a, k2.2) := by
          intro hEq
          rw [hEq, hg.2.2] at h
          exact Option.noConfusion h
        rw [cget_cset_ne st _ hkne]
        exact h
      · rw [innerGo_cons_neg q q2 rest upd hg]
        exact ih st upd k q0 h

theorem pass1Go_preserves (snap : List (CKey × Option ℚ)) :
    ∀ (st : Conv) (upd : Bool) (k : CKey) (q0 : ℚ), cget st k = some q0 →
      cget (pass1Go snap st upd).1 k = some q0 := by
  induction snap with
  | nil => intro st upd k q0 h; simpa [pass1Go]
  | cons e rest ih =>
    intro st upd k q0 h
    obtain ⟨ke, r⟩ := e
    cases r with
    | none => rw [pass1Go_cons_none]; exact ih st upd k q0 h
    | some q =>
      by_cases hg : q ≠ 0 ∧ cget st (ke.2, ke.1) = none
      · rw [pass1Go_cons_pos rest upd hg]
        refine ih _ _ k q0 (innerGo_preserves _ _ _ _ _ _ k q0 ?_)
        have hkne : k ≠ (ke.2, ke.1) := by
          intro hEq
          rw [hEq, hg.2] at h
          exact Option.noConfusion h
        rw [cget_cset_ne st _ hkne]
        exact h
      · rw [pass1Go_cons_neg rest upd hg]
        exact ih _ _ k q0 (innerGo_preserves _ _ _ _ _ _ k q0 h)

theorem pass1_preserves (st : Conv) (k : CKey) (q0 : ℚ) (h : cget st k = some q0) :
    cget (pass1 st).1 k = some q0 :=
  pass1Go_preserves st st false k q0 h

/-! ### The two-hop escalation at a fixed point of the single-hop pass -/

theorem findC3_spec {b : Sym} {c2 : CKey} {l : List (CKey × Option ℚ)} {c3 : CKey}
    (h : findC3 b c2 l = some c3) :
    (∃ r3, (c3, r3) ∈ l ∧ truthy r3) ∧ c2 ≠ c3 ∧ inPair b c3 ∧ interSyms c2 c3 ≠ [] := by
  induction l with
  | nil => simp [findC3] at h
  | cons e rest ih =>
    obtain ⟨k3, r3⟩ := e
    by_cases hg : c2 ≠ k3 ∧ truthy r3 ∧ inPair b k3 ∧ interSyms c2 k3 ≠ []
    · rw [show findC3 b c2 ((k3, r3) :: rest) = some k3 from by
        simp only [findC3]; rw [if_pos hg]] at h
      obtain rfl := Option.some_inj.1 h
      exact ⟨⟨r3, List.mem_cons_self .., hg.2.1⟩, hg.1, hg.2.2.1, hg.2.2.2⟩
    · rw [show findC3 b c2 ((k3, r3) :: rest) = findC3 b c2 rest from by
        simp only [findC3]; rw [if_neg hg]] at h
      obtain ⟨⟨r4, hm, ht⟩, h2, h3, h4⟩ := ih h
      exact ⟨⟨r4, List.mem_cons_of_mem _ hm, ht⟩, h2, h3, h4⟩

theorem findC2_spec {st : Conv} {a b : Sym} {l : List (CKey × Option ℚ)} {c2 c3 : CKey}
    (h : findC2 st a b l = some (c2, c3)) :
    (∃ r2, (c2, r2) ∈ l ∧ truthy r2) ∧ inPair a c2 ∧ findC3 b c2 st = some c3 := by
  induction l with
  | nil => simp [findC2] at h
  | cons e rest ih =>
    obtain ⟨k2, r2⟩ := e
    by_cases hg : truthy r2 ∧ inPair a k2
    · rw [show findC2 st a b ((k2, r2) :: rest)
          = (match findC3 b k2 st with
             | some c3 => some (k2, c3)
             | none => findC2 st a b rest) from by
        simp only [findC2]; rw [if_pos hg]] at h
      rcases hf : findC3 b k2 st with _ | c4
      · rw [hf] at h
        obtain ⟨⟨r4, hm, ht⟩, h2, h3⟩ := ih h
        exact ⟨⟨r4, List.mem_cons_of_mem _ hm, ht⟩, h2, h3⟩
      · rw [hf] at h
        obtain ⟨he1, he2⟩ := Prod.mk.injEq .. ▸ Option.some_inj.1 h
        subst he1; subst he2
        exact ⟨⟨r2, List.mem_cons_self .., hg.1⟩, hg.2, hf⟩
    · rw [show findC2 st a b ((k2, r2) :: rest) = findC2 st a b rest from by
        simp only [findC2]; rw [if_neg hg]] at h
      obtain ⟨⟨r4, hm, ht⟩, h2, h3⟩ := ih h
      exact ⟨⟨r4, List.mem_cons_of_mem _ hm, ht⟩, h2, h3⟩

theorem findEsc_spec {st : Conv} {l : List (CKey × Option ℚ)} {a b : Sym} {c2 c3 : CKey}
    (h : findEsc st l = some (a, b, c2, c3)) :
    ((a, b), (none : Option ℚ)) ∈ l ∧ findC2 st a b st = some (c2, c3) := by
  induction l with
  | nil => simp [findEsc] at h
  | cons e rest ih =>
    obtain ⟨k, r⟩ := e
    cases r with
    | some q =>
      rw [show findEsc st ((k, some q) :: rest) = findEsc st rest from rfl] at h
      obtain ⟨h1, h2⟩ := ih h
      exact ⟨List.mem_cons_of_mem _ h1, h2⟩
    | none =>
      rcases hf : findC2 st k.1 k.2 st with _ | p
      · rw [show findEsc st ((k, none) :: rest) = findEsc st rest from by
          simp only [findEsc]; rw [hf]] at h
        obtain ⟨h1, h2⟩ := ih h
        exact ⟨List.mem_cons_of_mem _ h1, h2⟩
      · obtain ⟨p2, p3⟩ := p
        rw [show findEsc st ((k, none) :: rest) = some (k.1, k.2, p2, p3) from by
          simp only [findEsc]; rw [hf]] at h
        have h4 : k.1 = a ∧ k.2 = b ∧ p2 = c2 ∧ p3 = c3 := by
          simpa using h
        obtain ⟨h1, h2, h3, h4⟩ := h4
        constructor
        · have hk : (a, b) = k := by
            rw [← h1, ← h2]
          rw [hk]
          exact List.mem_cons_self ..
        · rw [← h1, ← h2, hf, h3, h4]

/-- At a fixed point of the single-hop pass, over a duplicate-free mapping
(a Python dict always is), the two-hop escalation block never fires: its
loops either find no candidates at all, or the selected candidates make the
body raise before it mutates anything.  This is forced by closure: any
non-degenerate pivot configuration would already have been composed by the
single-hop pass, contradicting the pair being unknown. -/
theorem deduce_at_fixed (st : Conv) (hnd : (st.map Prod.fst).Nodup)
    (hfix : (pass1 st).2 = false) :
    conversions_deduce st = .nothing ∨ conversions_deduce st = .crash st := by
  obtain ⟨-, hINV, hCOMP⟩ := pass1_fixed st hfix
  unfold conversions_deduce
  rcases hfe : findEsc st st with _ | t
  · exact Or.inl rfl
  · obtain ⟨a, b, c2, c3⟩ := t
    obtain ⟨habm, hc2⟩ := findEsc_spec hfe
    obtain ⟨⟨r2, hr2m, hr2t⟩, hac2, hc3⟩ := findC2_spec hc2
    obtain ⟨⟨r3, hr3m, hr3t⟩, hne23, hbc3, hinter⟩ := findC3_spec hc3
    obtain ⟨u, hu, hu0⟩ := (truthy_iff r2).1 hr2t
    obtain ⟨w, hw, hw0⟩ := (truthy_iff r3).1 hr3t
    subst hu; subst hw
    have hab : cget st (a, b) = none := by
      unfold cget
      rw [mem_cfind_nodup hnd habm]
      rfl
    right
    show escFire st a b c2 c3 = EscOutcome.crash st
    unfold escFire
    rcases hi : interSyms c2 c3 with _ | ⟨x, xs⟩
    · rfl
    · rcases xs with _ | ⟨y, ys⟩
      · -- singleton intersection [x]
        have hxmem : x ∈ interSyms c2 c3 := by rw [hi]; exact List.mem_singleton.2 rfl
        obtain ⟨hxc2, hxc3⟩ := mem_interSyms.1 hxmem
        dsimp only
        rcases hqa : cfind st (a, x) with _ | oa
        · rfl
        · rcases oa with _ | qa
          · rfl
          · -- cfind st (a,x) = some (some qa): derive a contradiction
            exfalso
            by_cases hab2 : a = b
            · have hamem : a ∈ interSyms c2 c3 :=
                mem_interSyms.2 ⟨hac2, by rw [hab2]; exact hbc3⟩
              rw [hi] at hamem
              have hax : a = x := List.mem_singleton.1 hamem
              rw [← hax] at hqa
              have hcf := mem_cfind_nodup hnd habm
              rw [← hab2] at hcf
              rw [hqa] at hcf
              exact Option.noConfusion (Option.some_inj.1 hcf)
            · by_cases hax : x = a
              · rcases pair_of_inPair hbc3 (hax ▸ hxc3) (Ne.symm hab2) with hc | hc
                · subst hc
                  exact hINV (b, a) w hr3m hw0 hab
                · subst hc
                  have h1 := mem_cfind_nodup hnd habm
                  have h2 := mem_cfind_nodup hnd hr3m
                  rw [h1] at h2
                  exact Option.noConfusion (Option.some_inj.1 h2)
              · by_cases hbx : x = b
                · rcases pair_of_inPair hac2 (hbx ▸ hxc2) hab2 with hc | hc
                  · subst hc
                    have h1 := mem_cfind_nodup hnd habm
                    have h2 := mem_cfind_nodup hnd hr2m
                    rw [h1] at h2
                    exact Option.noConfusion (Option.some_inj.1 h2)
                  · subst hc
                    exact hINV (b, a) u hr2m hu0 hab
                · -- x shares no symbol with the unresolved pair
                  have haxm : ((a, x), some qa) ∈ st := cfind_eq_some_mem hqa
                  have hxb : ∃ w2 : ℚ, ((x, b), some w2) ∈ st := by
                    rcases pair_of_inPair hbc3 hxc3 (fun hEq => hbx hEq.symm) with hc | hc
                    · subst hc
                      have hkn := hINV (b, x) w hr3m hw0
                      obtain ⟨w2, hw2⟩ := Option.ne_none_iff_exists'.1 hkn
                      exact ⟨w2, cget_some_mem hw2⟩
                    · subst hc
                      exact ⟨w, hr3m⟩
                  obtain ⟨w2, hxbm⟩ := hxb
                  exact hCOMP (a, x) qa (x, b) w2 haxm hxbm rfl hab2 hab
      · rfl

/-! ### Claim theorems for the conversion resolver -/

/-- When a call of `conversions_remaining` ends without reporting progress
(`done`, `stalled` or `raised`), the single-hop pass made no update and the
mapping is returned unchanged. -/
theorem remaining_no_change (remains resolved : List CKey) {st : Conv}
    {verify : Bool} {st2 : Conv}
    (h : conversions_remaining st verify = .done st2 ∨
         conversions_remaining st verify = .stalled st2 remains resolved ∨
         conversions_remaining st verify = .raised st2 remains resolved) :
    (pass1 st).2 = false ∧ st2 = st := by
  by_cases hp : (pass1 st).2 = true
  · have hpr : conversions_remaining st verify = .progress (pass1 st).1 := by
      unfold conversions_remaining
      simp only [hp, if_true]
    rw [hpr] at h
    rcases h with h | h | h <;> exact absurd h (by simp)
  · have hp2 : (pass1 st).2 = false := by simpa using hp
    obtain ⟨hst, -, -⟩ := pass1_fixed st hp2
    refine ⟨hp2, ?_⟩
    unfold conversions_remaining at h
    simp only [hp2, Bool.false_eq_true, if_false, hst] at h
    rcases hd : conversions_deduce st with s2 | s2 | _ <;> rw [hd] at h <;> dsimp only at h
    · rcases h with h | h | h <;> exact absurd h (by simp)
    · rcases h with h | h | h <;> exact absurd h (by simp)
    · split at h
      · rcases h with h | h | h
        · exact (ConvOutcome.done.inj h).symm
        · exact absurd h (by simp)
        · exact absurd h (by simp)
      · split at h <;> rcases h with h | h | h
        · exact absurd h (by simp)
        · exact absurd h (by simp)
        · exact ((ConvOutcome.raised.inj h).1).symm
        · exact absurd h (by simp)
        · exact ((ConvOutcome.stalled.inj h).1).symm
        · exact absurd h (by simp)

/-- C10: known ratios are never overwritten.  For every conversions mapping
(with the duplicate-free keys a Python dict guarantees), a call of
`conversions_remaining` leaves every entry holding a known (non-`None`)
ratio — zero included — mapped to the same value; only absent or
`None`-valued entries are ever filled in. -/
theorem C10_no_overwrite (st : Conv) (verify : Bool) (k : CKey) (q : ℚ)
    (hnd : (st.map Prod.fst).Nodup) (h : cget st k = some q) :
    cget (conversions_remaining st verify).stateOf k = some q := by
  unfold conversions_remaining
  by_cases hp : (pass1 st).2 = true
  · simp only [hp, if_true, ConvOutcome.stateOf]
    exact pass1_preserves st k q h
  · have hp2 : (pass1 st).2 = false := by simpa using hp
    obtain ⟨hst, -, -⟩ := pass1_fixed st hp2
    simp only [hp2, Bool.false_eq_true, if_false, hst]
    rcases deduce_at_fixed st hnd hp2 with hd | hd <;> rw [hd] <;> dsimp only
    · split
      · simpa [ConvOutcome.stateOf] using h
      · split <;> simpa [ConvOutcome.stateOf] using h
    · simpa [ConvOutcome.stateOf] using h

/-- Witness for C10 at a concrete mapping holding a zero ratio. -/
theorem C10_no_overwrite_witness :
    cget (conversions_remaining
      [(("A", "B"), some 2), (("C", "D"), some 0), (("A", "D"), none)] false).stateOf
      ("C", "D") = some 0 :=
  C10_no_overwrite
    [(("A", "B"), some 2), (("C", "D"), some 0), (("A", "D"), none)] false
    ("C", "D") 0 (by decide) (by decide)

/-- C5 is refuted as stated: a mapping that pre-supplies both `(a,b)` and an
inconsistent reverse `(b,a)` is already a fixed point of deduction (the
call reports no change), yet `(b,a)` is not `1/(a,b)`. -/
theorem C5_inversion_counterexample :
    conversions_remaining [(("A", "B"), some 2), (("B", "A"), some 5)] false
      = .done [(("A", "B"), some 2), (("B", "A"), some 5)]
    ∧ cget [(("A", "B"), some 2), (("B", "A"), some 5)] ("B", "A") = some 5
    ∧ (5 : ℚ) ≠ (2 : ℚ)⁻¹ := by
  refine ⟨by decide, by decide, by decide⟩

/-- C5 (amended): once `conversions_remaining` reports no further change
(`done`, or `stalled`/`raised` with unknowns left), every pair mapped to a
known non-zero ratio has its reverse pair present with a *known* ratio —
though not necessarily `1/r`, since a pre-supplied inconsistent reverse is
preserved (known ratios are never overwritten). -/
theorem C5_inversion_closure (st : Conv) (verify : Bool) (st2 : Conv)
    (remains resolved : List CKey)
    (h : conversions_remaining st verify = .done st2 ∨
         conversions_remaining st verify = .stalled st2 remains resolved ∨
         conversions_remaining st verify = .raised st2 remains resolved)
    (a b : Sym) (q : ℚ) (hq : cget st2 (a, b) = some q) (hq0 : q ≠ 0) :
    (cget st2 (b, a)).isSome = true := by
  obtain ⟨hp2, hst2⟩ := remaining_no_change remains resolved h
  rw [hst2] at hq ⊢
  obtain ⟨-, hINV, -⟩ := pass1_fixed st hp2
  have hne := hINV (a, b) q (cget_some_mem hq) hq0
  rcases hk : cget st (b, a) with _ | q2
  · exact absurd hk hne
  · rfl

/-- Witness for C5 (amended) at a concrete fixed-point mapping. -/
theorem C5_inversion_closure_witness :
    (cget [(("A", "B"), some 2), (("B", "A"), some 5)] ("B", "A")).isSome = true :=
  C5_inversion_closure [(("A", "B"), some 2), (("B", "A"), some 5)] false
    [(("A", "B"), some 2), (("B", "A"), some 5)] [] []
    (Or.inl (by decide)) "A" "B" 2 (by decide) (by decide)

/-- C6 is refuted as stated: a mapping with no `None` values but with a
deducible inverse still missing makes `conversions_remaining` return truthy
`True` and extend the mapping, not return `False` unchanged. -/
theorem C6_idempotence_counterexample :
    conversions_remaining [(("A", "B"), some 2)] false
      = .progress [(("A", "B"), some 2), (("B", "A"), some (1 / 2 : ℚ))]
    ∧ (conversions_remaining [(("A", "B"), some 2)] false).stateOf
        ≠ [(("A", "B"), some 2)] := by
  refine ⟨by decide, by decide⟩

/-- C6 (amended): idempotence after success.  Whenever a call of
`conversions_remaining` returns falsey `False` ("no remaining unresolved
conversions"), the mapping is left exactly as it was, and re-running
deduction returns `False` again with the mapping still unchanged. -/
theorem C6_idempotent_after_done (st : Conv) (verify : Bool) (st2 : Conv)
    (h : conversions_remaining st verify = .done st2) :
    st2 = st ∧ conversions_remaining st2 verify = .done st2 := by
  obtain ⟨-, hst2⟩ := remaining_no_change [] [] (Or.inl h)
  rw [hst2] at h ⊢
  exact ⟨rfl, h⟩

/-- Witness for C6 (amended) at a concrete completed mapping. -/
theorem C6_idempotent_after_done_witness :
    [(("A", "B"), some (2 : ℚ)), (("B", "A"), some 5)]
        = [(("A", "B"), some (2 : ℚ)), (("B", "A"), some 5)]
    ∧ conversions_remaining
        [(("A", "B"), some (2 : ℚ)), (("B", "A"), some 5)] false
        = .done [(("A", "B"), some (2 : ℚ)), (("B", "A"), some 5)] :=
  C6_idempotent_after_done
    [(("A", "B"), some (2 : ℚ)), (("B", "A"), some 5)] false
    [(("A", "B"), some (2 : ℚ)), (("B", "A"), some 5)] (by decide)

/-- C1: the two-hop escalation block (artifact.py:166-180) does not compute
the spec's `r_a / r_b`.  Presented with ratios `(A,X) = 6` and `(B,X) = 3`
to the shared pivot `X` and the unresolved pair `(A,B)`, the block fires
and assigns the *product* `conversions[(A,X)] * conversions[(B,X)] = 18`
(and its inverse `1/18` to `(B,A)`), where the claimed
ratio-to-shared-pivot quotient `r_a / r_b` is `6 / 3 = 2`. -/
theorem C1_escalation_multiplies :
    conversions_deduce [(("A", "X"), some 6), (("B", "X"), some 3), (("A", "B"), none)]
      = .fired [(("A", "X"), some 6), (("B", "X"), some 3),
                (("A", "B"), some 18), (("B", "A"), some (1 / 18 : ℚ))]
    ∧ (18 : ℚ) ≠ 6 / 3 := by
  refine ⟨by decide, by decide⟩

/-- C7: the unresolvable scenario.  Given exactly
`{(ETH,USD): 1234.56, (BTC,USD): 23456.78, (DOGE,USD): unknown}`, iterating
`conversions_remaining` in strict (`verify`) mode ends in the raised
`RuntimeError`, whose diagnostics name `DOGE/USD` as still unresolved via
the resolved set `BTC/ETH, BTC/USD, ETH/USD`. -/
theorem C7_unresolvable_strict :
    (resolveFix 10 c7conversions true).isRaised = true
    ∧ (resolveFix 10 c7conversions true).diag
        = some ([("DOGE", "USD")],
                [("BTC", "ETH"), ("BTC", "USD"), ("ETH", "USD")]) := by
  refine ⟨by decide, by decide⟩

/-- C4 is refuted as stated: zero does propagate, but only when the zero
edge provides the composition that fills the unknown pair first.  Here
`(A,B) = 0` and `(B,C) = 5` are known and `(A,C)` is unknown, yet the pass
fills `(A,C)` from the other known path `(A,D) * (D,C) = 6`, not with `0`. -/
theorem C4_zero_counterexample :
    (conversions_remaining
      [(("A", "D"), some 2), (("D", "C"), some 3), (("A", "B"), some 0),
       (("B", "C"), some 5), (("A", "C"), none)] false).isProgress = true
    ∧ cget (conversions_remaining
        [(("A", "D"), some 2), (("D", "C"), some 3), (("A", "B"), some 0),
         (("B", "C"), some 5), (("A", "C"), none)] false).stateOf ("A", "C")
        = some 6
    ∧ (6 : ℚ) ≠ 0 := by
  refine ⟨by decide, by decide, by decide⟩

/-- C4 (amended): a pass never inverts a zero ratio — from
`{(a,b): 0, (b,a): None}` alone the reverse stays unknown and is reported
unresolved, with the mapping unchanged — and a zero ratio does propagate
through single-hop composition when the zero edge feeds the composition:
with exactly `{(a,b): 0, (b,c): r, (a,c): None}` the pass reports progress
and sets `(a,c)` to `0` (another known path, processed first, may instead
fill `(a,c)` with its own value). -/
theorem C4_zero_guard_propagation :
    (∀ (a b : Sym) (v : Bool), a ≠ b →
      conversions_remaining [((a, b), some 0), ((b, a), none)] v
        = (if v then .raised [((a, b), some 0), ((b, a), none)] [(b, a)] []
           else .stalled [((a, b), some 0), ((b, a), none)] [(b, a)] []))
    ∧ (∀ (a b c : Sym) (q2 : ℚ) (v : Bool), a ≠ b → b ≠ c → a ≠ c →
      (conversions_remaining
        [((a, b), some 0), ((b, c), some q2), ((a, c), none)] v).isProgress = true
      ∧ cget (conversions_remaining
          [((a, b), some 0), ((b, c), some q2), ((a, c), none)] v).stateOf (a, c)
          = some 0) := by
  constructor
  · intro a b v hab
    simp [conversions_remaining, pass1, pass1Go, innerGo, cget, cfind, cset,
      conversions_deduce, findEsc, findC2, findC3, truthy, sortKeys, insertKey,
      hab, Ne.symm hab]
  · intro a b c q2 v hab hbc hac
    by_cases hq2 : q2 = 0
    · constructor <;>
        simp [conversions_remaining, pass1, pass1Go, innerGo, cget, cfind, cset, hq2,
          ConvOutcome.isProgress, ConvOutcome.stateOf,
          hab, Ne.symm hab, hbc, Ne.symm hbc, hac, Ne.symm hac]
    · constructor <;>
        simp [conversions_remaining, pass1, pass1Go, innerGo, cget, cfind, cset, hq2,
          ConvOutcome.isProgress, ConvOutcome.stateOf,
          hab, Ne.symm hab, hbc, Ne.symm hbc, hac, Ne.symm hac]

/-- Witness for C4 (amended): the zero edge `(A,B)` composes with
`(B,C) = 7` and resolves `(A,C)` to zero. -/
theorem C4_zero_guard_propagation_witness :
    cget (conversions_remaining
      [(("A", "B"), some 0), (("B", "C"), some 7), (("A", "C"), none)] false).stateOf
      ("A", "C") = some 0 :=
  (C4_zero_guard_propagation.2 "A" "B" "C" 7 false (by decide) (by decide)
    (by decide)).2

/-! ### Claim theorems for the LineItem pricer -/

/-- C2: the `LineItem.net` postcondition.  The base amount is
`units * price`; an absent or zero tax yields zero taxes and "no tax"; a
tax strictly between 0 and 1 is added on top and described as added; a tax
above 1 leaves the amount unchanged, backs the taxes out as
`amount - amount / tax`, and is described as included at rate `tax - 1`.
Concretely, tax `0.05` on base `100` gives `(105, 5, added)` and tax
`1.05` on base `100` gives `(100, 100 - 100/1.05, included)`. -/
theorem C2_lineitem_net (li : LineItem) :
    ((li.tax = none ∨ li.tax = some 0) →
      li.net = (li.units * li.price, 0, .noTax))
    ∧ (∀ t : ℚ, li.tax = some t → 0 < t → t < 1 →
      li.net = (li.units * li.price + li.units * li.price * t,
                li.units * li.price * t, .added t))
    ∧ (∀ t : ℚ, li.tax = some t → 1 < t →
      li.net = (li.units * li.price,
                li.units * li.price - li.units * li.price / t, .incl (t - 1)))
    ∧ (LineItem.mk "w" 100 1 (some (5 / 100)) none none).net
        = (105, 5, .added (5 / 100))
    ∧ (LineItem.mk "w" 100 1 (some (105 / 100)) none none).net
        = (100, 100 - 100 / (105 / 100), .incl (5 / 100)) := by
  refine ⟨?_, ?_, ?_, by decide, by decide⟩
  · rintro (h | h) <;> simp [LineItem.net, h]
  · rintro t h h0 h1
    simp [LineItem.net, h, h0.ne', h1]
  · rintro t h h1
    have ht0 : t ≠ 0 := (zero_lt_one.trans h1).ne'
    have hnlt : ¬ t < 1 := not_lt.2 h1.le
    simp [LineItem.net, h, ht0, hnlt, h1]

/-- Witness for C2 at a concrete additive-tax line. -/
theorem C2_lineitem_net_witness :
    (LineItem.mk "w" 3 2 (some (1 / 10)) none none).net
      = ((2 : ℚ) * 3 + 2 * 3 * (1 / 10), 2 * 3 * (1 / 10), .added (1 / 10)) :=
  (C2_lineitem_net (LineItem.mk "w" 3 2 (some (1 / 10)) none none)).2.1
    (1 / 10) rfl (by decide) (by decide)

/-- C3 is refuted as stated: a tax of exactly 1 falls through both the
`< 1` and `> 1` comparisons, so `net` does return the no-tax result —
zero taxes, the "no tax" description, and the amount unchanged. -/
theorem C3_tax_one_counterexample :
    (LineItem.mk "x" 100 1 (some 1) none none).net = (100, 0, .noTax) := by
  decide

/-- C3 (amended): a tax of exactly 1 yields the same outcome as an absent
or zero tax: zero taxes, description "no tax", amount `units * price`
unchanged.  Absence/0 are thus not the only inputs producing "no tax". -/
theorem C3_tax_one_notax (li : LineItem) (h : li.tax = some 1) :
    li.net = (li.units * li.price, 0, .noTax) := by
  simp [LineItem.net, h]

/-- Witness for C3 (amended). -/
theorem C3_tax_one_notax_witness :
    (LineItem.mk "x" 7 2 (some 1) none none).net = ((2 : ℚ) * 7, 0, .noTax) :=
  C3_tax_one_notax (LineItem.mk "x" 7 2 (some 1) none none) rfl

/-! ### Claim theorems for the paginator -/

theorem pagesGo_nil {α : Type u} (n : ℕ) (pm : ℕ → Bool) (i : ℕ) (acc : List α) :
    pagesGo n pm [] i acc = if !acc.isEmpty && pm i then [acc] else [] := rfl

theorem pagesGo_cons {α : Type u} (n : ℕ) (pm : ℕ → Bool) (r : α) (rest : List α)
    (i : ℕ) (acc : List α) :
    pagesGo n pm (r :: rest) i acc
      = if n ≤ (acc ++ [r]).length then
          (if pm i then [acc ++ [r]] else []) ++ pagesGo n pm rest (i + 1) []
        else pagesGo n pm rest i (acc ++ [r]) := rfl

theorem pagesGo_join {α : Type u} (n : ℕ) :
    ∀ (l : List α) (i : ℕ) (acc : List α),
      (pagesGo n (fun _ => true) l i acc).join = acc ++ l := by
  intro l
  induction l with
  | nil =>
    intro i acc
    rw [pagesGo_nil]
    by_cases h : acc.isEmpty
    · simp [h, List.isEmpty_iff.1 h]
    · simp [h]
  | cons r rest ih =>
    intro i acc
    rw [pagesGo_cons]
    by_cases h : n ≤ (acc ++ [r]).length
    · rw [if_pos h]
      simp [ih]
    · rw [if_neg h]
      simp [ih i (acc ++ [r])]

theorem pagesGo_sizes {α : Type u} (n : ℕ) (hn : 0 < n) :
    ∀ (l : List α) (i : ℕ) (acc : List α), acc.length < n →
      (∀ b ∈ (pagesGo n (fun _ => true) l i acc).dropLast, b.length = n) ∧
      (∀ b, (pagesGo n (fun _ => true) l i acc).getLast? = some b →
        1 ≤ b.length ∧ b.length ≤ n) := by
  intro l
  induction l with
  | nil =>
    intro i acc hlen
    rw [pagesGo_nil]
    by_cases h : acc.isEmpty
    · simp [h]
    · refine ⟨by simp [h], ?_⟩
      intro b hb
      simp [h] at hb
      subst hb
      have hne : acc ≠ [] := fun hEq => by simp [hEq] at h
      exact ⟨Nat.one_le_iff_ne_zero.2 (by simpa using hne), hlen.le⟩
  | cons r rest ih =>
    intro i acc hlen
    rw [pagesGo_cons]
    by_cases h : n ≤ (acc ++ [r]).length
    · rw [if_pos h]
      have hfull : (acc ++ [r]).length = n := by
        simp at h ⊢
        omega
      rcases hres : pagesGo n (fun _ => true) rest (i + 1) ([] : List α) with _ | ⟨b2, res2⟩
      · refine ⟨by simp [hres], ?_⟩
        intro b hb
        simp [hres] at hb
        subst hb
        rw [hfull]
        exact ⟨hn, le_refl n⟩
      · obtain ⟨ihd, ihl⟩ := ih (i + 1) [] (by simpa using hn)
        rw [hres] at ihd ihl
        refine ⟨?_, ?_⟩
        · intro b hb
          simp only [if_true, hres, List.singleton_append,
            List.dropLast_cons₂] at hb
          rcases List.mem_cons.1 hb with hb | hb
          · rw [hb, hfull]
          · exact ihd b hb
        · intro b hb
          simp only [if_true, hres, List.singleton_append,
            List.getLast?_cons_cons] at hb
          exact ihl b hb
    · rw [if_neg h]
      have hlen2 : (acc ++ [r]).length < n := by
        simp at h ⊢
        omega
      exact ih i (acc ++ [r]) hlen2

theorem pagesGo_filter {α : Type u} (n : ℕ) (pm : ℕ → Bool) :
    ∀ (l : List α) (i : ℕ) (acc : List α),
      pagesGo n pm l i acc
        = ((List.enumFrom i (pagesGo n (fun _ => true) l i acc)).filter
            (fun p => pm p.1)).map Prod.snd := by
  intro l
  induction l with
  | nil =>
    intro i acc
    rw [pagesGo_nil, pagesGo_nil]
    by_cases h : acc.isEmpty
    · simp [h]
    · by_cases hp : pm i <;> simp [h, hp]
  | cons r rest ih =>
    intro i acc
    rw [pagesGo_cons, pagesGo_cons]
    by_cases h : n ≤ (acc ++ [r]).length
    · rw [if_pos h, if_pos h]
      by_cases hp : pm i <;>
        simp [hp, List.enumFrom_cons, ih (i + 1) []]
    · rw [if_neg h, if_neg h]
      exact ih i (acc ++ [r])

/-- C9: the paginator.  With no page filter, `pages` yields batches whose
concatenation is the original row sequence, every batch except possibly the
last holding exactly `n` rows and the last between 1 and `n`; with a page
filter, the yielded batches are exactly the filter-matching batches of that
same unfiltered partition, contents and boundaries identical. -/
theorem C9_paginator {α : Type u} (n : ℕ) (pm : ℕ → Bool) (rows : List α) :
    (pages n (fun _ => true) rows).join = rows
    ∧ (0 < n →
        (∀ b ∈ (pages n (fun _ => true) rows).dropLast, b.length = n)
        ∧ (∀ b, (pages n (fun _ => true) rows).getLast? = some b →
            1 ≤ b.length ∧ b.length ≤ n))
    ∧ pages n pm rows
        = (((pages n (fun _ => true) rows).enum).filter (fun p => pm p.1)).map
            Prod.snd := by
  refine ⟨pagesGo_join n rows 0 [], ?_, ?_⟩
  · intro hn
    exact pagesGo_sizes n hn rows 0 [] (by simpa using hn)
  · exact pagesGo_filter n pm rows 0 []

/-! ### Claim theorems for the invoice aggregator -/

theorem rhe_nonneg {q : ℚ} (h : 0 ≤ q) : 0 ≤ rhe q := by
  have hf : (0 : ℤ) ≤ ⌊q⌋ := Int.floor_nonneg.2 h
  show 0 ≤ if q - (⌊q⌋ : ℤ) < 1 / 2 then ⌊q⌋ else if 1 / 2 < q - (⌊q⌋ : ℤ) then ⌊q⌋ + 1
    else if 2 ∣ ⌊q⌋ then ⌊q⌋ else ⌊q⌋ + 1
  split_ifs <;> omega

theorem roundTo_nonneg {q : ℚ} (d : ℕ) (h : 0 ≤ q) : 0 ≤ roundTo q d := by
  unfold roundTo
  apply div_nonneg
  · exact_mod_cast rhe_nonneg (by positivity)
  · positivity

/-- Under non-negative units, price and tax rate, both the line amount and
the line taxes computed by `net` are non-negative. -/
theorem net_nonneg (li : LineItem) (hu : 0 ≤ li.units) (hp : 0 ≤ li.price)
    (ht : 0 ≤ li.tax.getD 0) : 0 ≤ li.net.1 ∧ 0 ≤ li.net.2.1 := by
  have hb : 0 ≤ li.units * li.price := mul_nonneg hu hp
  unfold LineItem.net
  rcases hx : li.tax with _ | t
  · exact ⟨hb, le_refl 0⟩
  · rw [hx] at ht
    simp only [Option.getD_some] at ht
    dsimp only
    split_ifs with h0 h1 h2
    · exact ⟨hb, le_refl 0⟩
    · have htx : 0 ≤ li.units * li.price * t := mul_nonneg hb ht
      exact ⟨add_nonneg hb htx, htx⟩
    · have hds : li.units * li.price / t ≤ li.units * li.price :=
        div_le_self hb (by linarith)
      exact ⟨hb, sub_nonneg.2 hds⟩
    · exact ⟨hb, le_refl 0⟩

theorem iterGo_length (inv : Invoice) :
    ∀ (lines : List LineItem) (tot tax : Sym → ℚ) (i : ℕ),
      (iterGo inv lines tot tax i).length = lines.length := by
  intro lines
  induction lines with
  | nil => intro tot tax i; rfl
  | cons li rest ih => intro tot tax i; simp [iterGo, ih]

/-- The running accumulators recorded on the `k`-th row are the initial
accumulators plus the converted contributions of the first `k + 1` lines. -/
theorem iterGo_totAt (inv : Invoice) (c : Sym) (hc : c ∈ inv.currencies) :
    ∀ (lines : List LineItem) (tot tax : Sym → ℚ) (i : ℕ) (k : ℕ)
      (hk : k < (iterGo inv lines tot tax i).length),
      ((iterGo inv lines tot tax i).get ⟨k, hk⟩).totAt c
          = tot c + ((lines.take (k + 1)).map (fun li =>
              if lineSym inv li = c then lineAmountR inv li
              else lineAmountR inv li * inv.conv (lineSym inv li) c)).sum
      ∧ ((iterGo inv lines tot tax i).get ⟨k, hk⟩).taxAt c
          = tax c + ((lines.take (k + 1)).map (fun li =>
              if lineSym inv li = c then lineTaxesR inv li
              else lineTaxesR inv li * inv.conv (lineSym inv li) c)).sum := by
  intro lines
  induction lines with
  | nil =>
    intro tot tax i k hk
    simp [iterGo] at hk
  | cons li rest ih =>
    intro tot tax i k hk
    cases k with
    | zero =>
      constructor <;>
      · show (if c ∈ inv.currencies then _ else _) = _
        rw [if_pos hc]
        simp only [List.take_succ_cons, List.take_zero, List.map_cons, List.map_nil,
          List.sum_cons, List.sum_nil, add_zero]
        split <;> rfl
    | succ k2 =>
      have hk2 : k2 < (iterGo inv rest
          (fun c2 => if c2 ∈ inv.currencies then
            (if lineSym inv li = c2 then tot c2 + lineAmountR inv li
             else tot c2 + lineAmountR inv li * inv.conv (lineSym inv li) c2)
           else tot c2)
          (fun c2 => if c2 ∈ inv.currencies then
            (if lineSym inv li = c2 then tax c2 + lineTaxesR inv li
             else tax c2 + lineTaxesR inv li * inv.conv (lineSym inv li) c2)
           else tax c2)
          (i + 1)).length := by
        simpa [iterGo, iterGo_length] using hk
      obtain ⟨ih1, ih2⟩ := ih _ _ (i + 1) k2 hk2
      constructor
      · show ((iterGo inv rest _ _ (i + 1)).get ⟨k2, hk2⟩).totAt c = _
        rw [ih1, if_pos hc]
        simp only [List.take_succ_cons, List.map_cons, List.sum_cons]
        split <;> ring
      · show ((iterGo inv rest _ _ (i + 1)).get ⟨k2, hk2⟩).taxAt c = _
        rw [ih2, if_pos hc]
        simp only [List.take_succ_cons, List.map_cons, List.sum_cons]
        split <;> ring

/-- C8: monotonic running totals.  For an Invoice whose line items all have
non-negative units, prices and tax rates (and whose resolved ratios are
non-negative, as the spec's Ratio domain requires), each target currency's
running total and running tax are non-decreasing from each row to the next,
and the last row's total is the sum over all lines of the line's rounded
amount converted at the fixed resolved ratio (added directly when the
line's symbol is that currency). -/
theorem C8_monotonic_totals (inv : Invoice)
    (hlines : ∀ li ∈ inv.lines, 0 ≤ li.units ∧ 0 ≤ li.price ∧ 0 ≤ li.tax.getD 0)
    (hconv : ∀ s c2, 0 ≤ inv.conv s c2)
    (c : Sym) (hc : c ∈ inv.currencies) :
    (∀ (k : ℕ) (hk1 : k + 1 < inv.iter.length),
      (inv.iter.get ⟨k, by omega⟩).totAt c ≤ (inv.iter.get ⟨k + 1, hk1⟩).totAt c
      ∧ (inv.iter.get ⟨k, by omega⟩).taxAt c ≤ (inv.iter.get ⟨k + 1, hk1⟩).taxAt c)
    ∧ (∀ (k : ℕ) (hk : k + 1 = inv.iter.length) (hk2 : k < inv.iter.length),
      (inv.iter.get ⟨k, hk2⟩).totAt c
        = (inv.lines.map (fun li =>
            if lineSym inv li = c then lineAmountR inv li
            else lineAmountR inv li * inv.conv (lineSym inv li) c)).sum) := by
  have hlen : inv.iter.length = inv.lines.length := iterGo_length inv inv.lines _ _ 0
  have hcontrib : ∀ li ∈ inv.lines,
      0 ≤ (if lineSym inv li = c then lineAmountR inv li
           else lineAmountR inv li * inv.conv (lineSym inv li) c)
      ∧ 0 ≤ (if lineSym inv li = c then lineTaxesR inv li
           else lineTaxesR inv li * inv.conv (lineSym inv li) c) := by
    intro li hli
    obtain ⟨hu, hp, ht⟩ := hlines li hli
    obtain ⟨ha, htx⟩ := net_nonneg li hu hp ht
    have h1 : 0 ≤ lineAmountR inv li := roundTo_nonneg _ ha
    have h2 : 0 ≤ lineTaxesR inv li := roundTo_nonneg _ htx
    constructor <;> split
    · exact h1
    · exact mul_nonneg h1 (hconv _ _)
    · exact h2
    · exact mul_nonneg h2 (hconv _ _)
  constructor
  · intro k hk1
    have hkk1 : k + 1 < (iterGo inv inv.lines (fun _ => 0) (fun _ => 0) 0).length := hk1
    have hkk : k < (iterGo inv inv.lines (fun _ => 0) (fun _ => 0) 0).length := by omega
    obtain ⟨e1, e2⟩ := iterGo_totAt inv c hc inv.lines (fun _ => 0) (fun _ => 0) 0 k hkk
    obtain ⟨e3, e4⟩ :=
      iterGo_totAt inv c hc inv.lines (fun _ => 0) (fun _ => 0) 0 (k + 1) hkk1
    have hkl : k + 1 < inv.lines.length := by
      rw [iterGo_length] at hkk1
      exact hkk1
    have htake : inv.lines.take (k + 1 + 1)
        = inv.lines.take (k + 1) ++ [inv.lines.get ⟨k + 1, hkl⟩] := by
      rw [List.take_succ, List.getElem?_eq_getElem hkl]
      rfl
    have hmem : inv.lines.get ⟨k + 1, hkl⟩ ∈ inv.lines := List.get_mem ..
    obtain ⟨hc1, hc2⟩ := hcontrib _ hmem
    constructor
    · show ((iterGo inv inv.lines (fun _ => 0) (fun _ => 0) 0).get ⟨k, hkk⟩).totAt c
        ≤ ((iterGo inv inv.lines (fun _ => 0) (fun _ => 0) 0).get ⟨k + 1, hkk1⟩).totAt c
      rw [e1, e3, htake]
      simp only [List.map_append, List.sum_append, List.map_cons, List.map_nil,
        List.sum_cons, List.sum_nil, add_zero]
      linarith
    · show ((iterGo inv inv.lines (fun _ => 0) (fun _ => 0) 0).get ⟨k, hkk⟩).taxAt c
        ≤ ((iterGo inv inv.lines (fun _ => 0) (fun _ => 0) 0).get ⟨k + 1, hkk1⟩).taxAt c
      rw [e2, e4, htake]
      simp only [List.map_append, List.sum_append, List.map_cons, List.map_nil,
        List.sum_cons, List.sum_nil, add_zero]
      linarith
  · intro k hk hk2
    have hkk : k < (iterGo inv inv.lines (fun _ => 0) (fun _ => 0) 0).length := hk2
    obtain ⟨e1, -⟩ := iterGo_totAt inv c hc inv.lines (fun _ => 0) (fun _ => 0) 0 k hkk
    show ((iterGo inv inv.lines (fun _ => 0) (fun _ => 0) 0).get ⟨k, hkk⟩).totAt c = _
    rw [e1]
    have htk : inv.lines.take (k + 1) = inv.lines := by
      apply List.take_of_length_le
      have h3 : k + 1 = (iterGo inv inv.lines (fun _ => 0) (fun _ => 0) 0).length := hk
      rw [iterGo_length] at h3
      omega
    rw [htk]
    simp

/-- Witness for C8 on a concrete two-line invoice. -/
theorem C8_monotonic_totals_witness :
    ((Invoice.mk
        [LineItem.mk "a" 3 2 none none (some "USD"),
         LineItem.mk "b" 5 1 (some (1 / 10)) none (some "BTC")]
        ["USD", "BTC"] (fun _ _ => 2) (fun s => TokenInfo.mk s 6)).iter.get
          ⟨0, by decide⟩).totAt "USD"
      ≤ ((Invoice.mk
        [LineItem.mk "a" 3 2 none none (some "USD"),
         LineItem.mk "b" 5 1 (some (1 / 10)) none (some "BTC")]
        ["USD", "BTC"] (fun _ _ => 2) (fun s => TokenInfo.mk s 6)).iter.get
          ⟨1, by decide⟩).totAt "USD" :=
  ((C8_monotonic_totals
      (Invoice.mk
        [LineItem.mk "a" 3 2 none none (some "USD"),
         LineItem.mk "b" 5 1 (some (1 / 10)) none (some "BTC")]
        ["USD", "BTC"] (fun _ _ => 2) (fun s => TokenInfo.mk s 6))
      (by decide) (fun _ _ => by show (0 : ℚ) ≤ 2; decide) "USD" (by decide)).1
    0 (by decide)).1

/-- Witness for C9 on a five-row sequence with two rows per page, keeping
only page 1. -/
theorem C9_paginator_witness :
    (pages 2 (fun _ => true) ([1, 2, 3, 4, 5] : List ℕ)).join = [1, 2, 3, 4, 5]
    ∧ (1 ≤ ([5] : List ℕ).length ∧ ([5] : List ℕ).length ≤ 2)
    ∧ pages 2 (fun i => i == 1) ([1, 2, 3, 4, 5] : List ℕ)
        = (((pages 2 (fun _ => true) ([1, 2, 3, 4, 5] : List ℕ)).enum).filter
            (fun p => p.1 == 1)).map Prod.snd :=
  ⟨(C9_paginator 2 (fun i => i == 1) [1, 2, 3, 4, 5]).1,
   ((C9_paginator 2 (fun i => i == 1) [1, 2, 3, 4, 5]).2.1 (by decide)).2 [5]
     (by decide),
   (C9_paginator 2 (fun i => i == 1) [1, 2, 3, 4, 5]).2.2⟩

end Slip39
